import Mathlib

/-!
Verification of the fhir-package-loader core (package resolution, caching,
download orchestration and the hierarchical definition store) against its
natural-language specification.  The definitions below are shallow embeddings
of the TypeScript source: `loadFromPath`, `cleanCachedPackage`,
`mergeDependency`, `loadDependencies`, `lookUpLatestVersion`,
`lookUpLatestPatchVersion` and the `PackageCache` throttle are translated from
`src/load.ts`; the `FHIRDefinitions.fishForFHIR` lookup (whose implementation
file is not part of the snapshot) is modelled from the specification and the
repository's own test suite.  File systems, the in-process package cache and
the network are made explicit: stateful code threads an explicit state record,
and every network request is recorded in a trace so that "no network call"
claims become statements about that trace.
-/

namespace FPL

/-- The closed set of definition categories (source enum `Type` in
`FHIRDefinitions.ts`; spec section 3).  `typeKind` stands for the source's
`Type` member (primitive or complex types), `instanceKind` for `Instance`. -/
inductive TypeCategory where
  | resource
  | logical
  | typeKind
  | profile
  | extensionKind
  | valueSet
  | codeSystem
  | implementationGuide
  | instanceKind
deriving DecidableEq, Repr

/-- One parsed JSON record from a package.  The loader inspects only the
`date` field (current-build staleness check); the definition store additionally
indexes `id`, `name`, `url` and filters on `version`.  `category` is the
`TypeCategory` assigned by the ingestion-time classification rule of spec
section 3 (the classifier itself is orthogonal to the claims and is modelled
as a precomputed field).  `payload` distinguishes otherwise-identical
records. -/
structure RawDef where
  id : Option String := none
  name : Option String := none
  url : Option String := none
  version : Option String := none
  date : Option String := none
  category : TypeCategory := TypeCategory.instanceKind
  payload : Nat := 0
deriving DecidableEq, Repr

/-- A file-system entry inside a cached package directory: a parsed JSON file
or a subdirectory (directory listings keep insertion order, standing in for
`fs.readdirSync` order). -/
inductive Entry where
  | file (content : RawDef)
  | dir (entries : List (String × Entry))

/-- Contents of one directory: named entries in listing order. -/
abbrev Dir := List (String × Entry)

/-- The cache root: package directory names mapped to their contents
(`{cacheRoot}/{name#version}/...`). -/
abbrev FS := List (String × Dir)

/-! Character-list implementations of the string operations the source uses
(`toLowerCase`, `endsWith`, `startsWith`, `split`, number parsing, …).  They
agree with the corresponding `String` library functions but recurse
structurally over the character data, so that concrete instances of the
theorems below evaluate inside the kernel. -/

/-- `s.toLowerCase()` (ASCII letters, as `Char.toLower` does). -/
def lowerString (s : String) : String :=
  String.mk (s.data.map Char.toLower)

/-- `s.startsWith(p)`. -/
def strStartsWith (s p : String) : Bool :=
  p.data.isPrefixOf s.data

/-- `s.endsWith(p)`. -/
def strEndsWith (s p : String) : Bool :=
  p.data.isSuffixOf s.data

/-- `s.slice(0, -n)`: the string without its last `n` characters. -/
def dropRightStr (s : String) (n : Nat) : String :=
  String.mk (s.data.take (s.data.length - n))

/-- `split` on a one-character separator, on character lists: the groups
between separator occurrences, in order (an empty input yields one empty
group, as `String.splitOn` and JavaScript `split` do). -/
def splitOnChar (sep : Char) : List Char → List (List Char)
  | [] => [[]]
  | c :: rest =>
    if c = sep then [] :: splitOnChar sep rest
    else
      match splitOnChar sep rest with
      | [] => [[c]]
      | g :: gs => (c :: g) :: gs

/-- `s.split(sep)` for a one-character separator. -/
def splitOnStr (s : String) (sep : Char) : List String :=
  (splitOnChar sep s.data).map String.mk

/-- Parses a non-empty all-digit string (the `\d+` pieces of the version
regexes). -/
def charsToNat? (cs : List Char) : Option Nat :=
  if cs ≠ [] ∧ cs.all (fun c => c.isDigit) then
    some (cs.foldl (fun n c => n * 10 + (c.toNat - 48)) 0)
  else none

/-- Look up a directory entry by exact name (the first one, as `fs` path
resolution would). -/
def lookupEntry (d : Dir) (nm : String) : Option Entry :=
  (d.find? (fun e => e.1 = nm)).map (fun e => e.2)

/-- Embeds `cleanCachedPackage` (load.ts): if an entry named `package` exists
(`fs.existsSync(path.join(packageDirectory, 'package'))`), every other
top-level entry is renamed into that `package` directory (names and nested
structure preserved); otherwise nothing happens.  The degenerate case in which
the `package` entry is a plain file is not modelled (the renames would fail at
run time) and is mapped to the identity. -/
def cleanCachedPackage (entries : Dir) : Dir :=
  match entries.find? (fun e => e.1 = "package") with
  | none => entries
  | some (_, Entry.file _) => entries
  | some (_, Entry.dir ps) =>
      [("package", Entry.dir (ps ++ entries.filter (fun e => ¬(e.1 = "package"))))]

/-- Embeds class `LoadedPackage` (load.ts): the memoized result of reading one
cached package directory. -/
structure LoadedPackage where
  package : String
  defs : List RawDef
  packageJson : Option RawDef
deriving DecidableEq, Repr

/-- Embeds the static `PackageCache.cache` map: exact cache key
(`name#version`) to `LoadedPackage`. -/
abbrev ProcessCache := List (String × LoadedPackage)

/-- `PackageCache.get` (and the truthiness test of `PackageCache.contains`). -/
def pcGet (pc : ProcessCache) (pkg : String) : Option LoadedPackage :=
  (pc.find? (fun e => e.1 = pkg)).map (fun e => e.2)

/-- `PackageCache.put`. -/
def pcPut (pc : ProcessCache) (pkg : String) (lp : LoadedPackage) : ProcessCache :=
  (pkg, lp) :: pc

/-- Embeds `PackageCache.isCurrentPackageRefreshNeeded` (load.ts):
`!lastCurrentUpdate || lastCurrentUpdate.getTime() - new Date().getTime() >
86400000`.  Timestamps are milliseconds-since-epoch integers; `none` models an
unset `lastCurrentUpdate`. -/
def isCurrentPackageRefreshNeeded (lastCurrentUpdate : Option Int)
    (now : Int) : Bool :=
  match lastCurrentUpdate with
  | none => true
  | some t => decide (t - now > 86400000)

/-- The `.json` files of a directory listing, in listing order (the
`readdirSync(...).filter(file => file.endsWith('.json'))` step of
`loadFromPath`; subdirectories are not parseable files and are skipped). -/
def jsonFiles (pkgDir : Dir) : List (String × RawDef) :=
  pkgDir.filterMap (fun e =>
    match e.2 with
    | Entry.file c => if strEndsWith e.1 ".json" then some (e.1, c) else none
    | Entry.dir _ => none)

/-- Whether a cache directory has a `package` subdirectory that
`fs.readdirSync` could list. -/
def hasPackageDir (d : Dir) : Bool :=
  match lookupEntry d "package" with
  | some (Entry.dir _) => true
  | _ => false

/-- Embeds `loadFromPath` (load.ts).  Returns the memoized record when the
ProcessCache already holds the exact key; otherwise scans the cache root for a
directory whose lowercased name equals the requested key
(`packageName.toLowerCase() === targetPackage`).  No match is absence
(`Except.ok none`, the source's `null`: not found is not an error).  On a
match the source calls `fs.readdirSync(path.join(cachePath, cachedPackage,
'package'))` without guarding it, so when the matched directory has no
`package` subdirectory (or its `package` entry is a plain file) that call
throws — modelled as `Except.error ()`.  Otherwise every `.json` file under
`package/` is read, `package.json` is captured as package metadata, and the
result is memoized under the exact requested key before being returned. -/
def loadFromPath (fs : FS) (pc : ProcessCache) (targetPackage : String) :
    Except Unit (Option LoadedPackage) × ProcessCache :=
  match pcGet pc targetPackage with
  | some lp => (Except.ok (some lp), pc)
  | none =>
    match fs.find? (fun p => lowerString p.1 = targetPackage) with
    | none => (Except.ok none, pc)
    | some (_, dirContents) =>
      match lookupEntry dirContents "package" with
      | some (Entry.dir es) =>
        let files := jsonFiles es
        let result : LoadedPackage :=
          { package := targetPackage
            defs := files.map (fun f => f.2)
            packageJson := (files.find? (fun f => f.1 = "package.json")).map (fun f => f.2) }
        (Except.ok (some result), pcPut pc targetPackage result)
      | _ => (Except.error (), pc)

/-- Models the `removeSync` + `moveSync` pair of `mergeDependency`'s download
step: the cache directory with the exact name `nm` (if any) is replaced by
`content`. -/
def replaceDir (fs : FS) (nm : String) (content : Dir) : FS :=
  (fs.filter (fun p => ¬(p.1 = nm))) ++ [(nm, content)]

/-- Embeds class `FHIRDefinitions`: the hierarchical definition store.  One
node carries the identity of the package it represents (`package`), its own
definitions, the accumulated package-metadata records
(`addPackageJson` entries), an ordered list of child stores and the
`unsuccessfulPackageLoad` flag. -/
inductive FHIRDefinitions where
  | mk (package : String) (ownDefinitions : List RawDef)
       (packageJsons : List (String × Option RawDef))
       (childFHIRDefs : List FHIRDefinitions)
       (unsuccessfulPackageLoad : Bool)

/-- The package identity of a store node. -/
def FHIRDefinitions.package : FHIRDefinitions → String
  | .mk p _ _ _ _ => p

/-- The definitions owned directly by a store node. -/
def FHIRDefinitions.ownDefinitions : FHIRDefinitions → List RawDef
  | .mk _ own _ _ _ => own

/-- The accumulated package-metadata records of a store node. -/
def FHIRDefinitions.packageJsons : FHIRDefinitions → List (String × Option RawDef)
  | .mk _ _ pjs _ _ => pjs

/-- The ordered child stores of a store node. -/
def FHIRDefinitions.childFHIRDefs : FHIRDefinitions → List FHIRDefinitions
  | .mk _ _ _ cs _ => cs

/-- The failed-load flag of a store node. -/
def FHIRDefinitions.unsuccessfulPackageLoad : FHIRDefinitions → Bool
  | .mk _ _ _ _ flag => flag

/-- A freshly constructed `new FHIRDefinitions()`. -/
def emptyFHIRDefs : FHIRDefinitions := .mk "" [] [] [] false

/-- Embeds `merge` (load.ts): every definition of the loaded package is added
to the store, the package metadata is recorded under the package label, and
the store takes over the package label. -/
def merge (pkg : LoadedPackage) (defs : FHIRDefinitions) : FHIRDefinitions :=
  match defs with
  | .mk _ own pjs children flag =>
    .mk pkg.package (own ++ pkg.defs) (pjs ++ [(pkg.package, pkg.packageJson)])
      children flag

/-! ### The `fishForFHIR` lookup

The implementation file of `FHIRDefinitions` is not part of the repository
snapshot; the lookup below is modelled from spec section 4.7 together with the
repository's `FHIRDefinitions.test.ts` suite, which pins down the
version-suffix handling (the lookup string is split at the FIRST occurrence of
the reserved separator, the remainder — which may itself contain separators —
being the requested version) and the parent-before-children search order. -/

/-- The fixed default category priority order used when no categories are
requested (spec section 4.7). -/
def defaultTypeOrder : List TypeCategory :=
  [.resource, .logical, .typeKind, .profile, .extensionKind, .valueSet,
   .codeSystem, .instanceKind]

/-- A candidate satisfies the version constraint: no constraint accepts
everything; a requested version accepts exactly a candidate whose own
`version` attribute equals it (a definition lacking a version attribute never
satisfies a versioned query). -/
def versionOk (ver : Option String) (d : RawDef) : Bool :=
  match ver with
  | none => true
  | some v => decide (d.version = some v)

/-- First match in one key space for one requested category. -/
def fishInList (key : String) (ver : Option String) (cat : TypeCategory)
    (field : RawDef → Option String) (own : List RawDef) : Option RawDef :=
  own.find? (fun d =>
    decide (d.category = cat) && decide (field d = some key) && versionOk ver d)

/-- The first hit in a list of optional results. -/
def firstSome : List (Option RawDef) → Option RawDef
  | [] => none
  | some d :: _ => some d
  | none :: rest => firstSome rest

/-- Lookup among one node's own definitions: for each requested category in
order (default order when none requested), `byId` is consulted first, then
`byName`, then `byUrl`. -/
def fishOwn (key : String) (ver : Option String) (types : List TypeCategory)
    (own : List RawDef) : Option RawDef :=
  let order := if types.isEmpty then defaultTypeOrder else types
  firstSome (order.map (fun cat =>
    firstSome [fishInList key ver cat (fun d => d.id) own,
               fishInList key ver cat (fun d => d.name) own,
               fishInList key ver cat (fun d => d.url) own]))

/-- Splits a character list at the first `|`: the part before it and, when a
`|` is present, everything after it (verbatim, later separators included). -/
def splitFirstBarChars : List Char → List Char × Option (List Char)
  | [] => ([], none)
  | c :: rest =>
    if c = '|' then ([], some rest)
    else
      let r := splitFirstBarChars rest
      (c :: r.1, r.2)

/-- Splits a lookup string into base key and optional requested version, as
`item.split('|')` destructuring does: the base is the text before the first
separator and the requested version is everything after it (an empty
remainder, as in `"x|"`, is falsy in the source and means no version was
requested). -/
def splitFirstBar (item : String) : String × Option String :=
  let r := splitFirstBarChars item.data
  (String.mk r.1,
   match r.2 with
   | none => none
   | some [] => none
   | some cs => some (String.mk cs))

/-- One node's own lookup for a full lookup string (split applied). -/
def fishOwnItem (item : String) (types : List TypeCategory)
    (own : List RawDef) : Option RawDef :=
  let s := splitFirstBar item
  fishOwn s.1 s.2 types own

/-- Queue-based search over a tree of stores: the node at the head of the
queue is searched, and on a miss its children are appended behind the
remaining queue — siblings in insertion order are searched breadth-first
before any grandchild.  The fuel argument makes the recursion structural; the
entry point supplies more fuel than the tree has nodes. -/
def bfsFish (item : String) (types : List TypeCategory) :
    Nat → List FHIRDefinitions → Option RawDef
  | 0, _ => none
  | _ + 1, [] => none
  | fuel + 1, d :: rest =>
    match fishOwnItem item types d.ownDefinitions with
    | some r => some r
    | none => bfsFish item types fuel (rest ++ d.childFHIRDefs)

mutual

/-- Number of nodes of a store tree (used as search fuel). -/
def nodeSize : FHIRDefinitions → Nat
  | .mk _ _ _ cs _ => 1 + nodeSizeList cs

/-- Total number of nodes of a list of store trees. -/
def nodeSizeList : List FHIRDefinitions → Nat
  | [] => 0
  | d :: rest => nodeSize d + nodeSizeList rest

end

/-- Models `FHIRDefinitions.fishForFHIR` (spec section 4.7, pinned by the
repository tests): current node first, then children breadth-first across
siblings in insertion order before descending to any grandchild. -/
def fishForFHIR (defs : FHIRDefinitions) (item : String)
    (types : List TypeCategory) : Option RawDef :=
  bfsFish item types (nodeSize defs) [defs]

/-! ### `loadDependencies` -/

/-- The package id of a request string: the part before the first `#`
(`fhirPackage.split('#')` destructuring). -/
def requestId (fhirPackage : String) : String :=
  (splitOnStr fhirPackage '#').headD ""

/-- The version of a request string: the part between the first and second
`#`, absent (`undefined`) when the request has no `#`. -/
def requestVersion (fhirPackage : String) : Option String :=
  ((splitOnStr fhirPackage '#').drop 1).head?

/-- String interpolation of a possibly-undefined version
(template literals render `undefined` as the text `undefined`). -/
def versionString (v : Option String) : String := v.getD "undefined"

/-- Substring test, standing in for the `/certificate/.test(...)` regex. -/
def hasSubstr (hay needle : List Char) : Bool :=
  needle.isPrefixOf hay ||
    match hay with
    | [] => false
    | _ :: t => hasSubstr t needle

/-- The proxy/SSL remediation guidance appended when the underlying error text
mentions a certificate (verbatim from load.ts). -/
def certGuidance : String :=
  "\n\nSometimes this error occurs in corporate or educational environments that use proxies and/or SSL inspection.\nTroubleshooting tips:\n  1. If a non-proxied network is available, consider connecting to that network instead.\n  2. Set NODE_EXTRA_CA_CERTS as described at https://bit.ly/3ghJqJZ (RECOMMENDED).\n  3. Disable certificate validation as described at https://bit.ly/3syjzm7 (NOT RECOMMENDED).\n"

/-- One request of `loadDependencies`: the underlying merge (kept abstract,
mirroring the source's `exports.mergeDependency` indirection that the test
suite mocks) is run against a fresh store; a rejection is caught and converted
into one error log entry plus a store flagged `unsuccessfulPackageLoad` and
labeled with the requested `name#version`.  The second component is the list
of `(level, message)` entries logged by the catch handler. -/
def loadOne
    (mergeFn : String → Option String → FHIRDefinitions → Except String FHIRDefinitions)
    (fhirPackage : String) : FHIRDefinitions × List (String × String) :=
  let pkgId := requestId fhirPackage
  let pkgVer := requestVersion fhirPackage
  match mergeFn pkgId pkgVer emptyFHIRDefs with
  | Except.ok d => (d, [])
  | Except.error msg =>
    let label := pkgId ++ "#" ++ versionString pkgVer
    let message := "Failed to load " ++ label ++ ": " ++ msg ++
      (if hasSubstr msg.data "certificate".data then certGuidance else "")
    (FHIRDefinitions.mk label [] [] [] true, [("error", message)])

/-- Embeds `loadDependencies` (load.ts): every request is resolved
independently through `loadOne`; with more than one request the per-request
stores become the children of a fresh aggregator store, with exactly one they
are returned directly, and with zero requests the source returns
`fhirDefs[0]`, which is `undefined` — modelled as `none`.  The promise never
rejects: the function is total and the error component is a log, not a
failure. -/
def loadDependencies
    (mergeFn : String → Option String → FHIRDefinitions → Except String FHIRDefinitions)
    (fhirPackages : List String) :
    Option FHIRDefinitions × List (String × String) :=
  let results := fhirPackages.map (loadOne mergeFn)
  let stores := results.map (fun r => r.1)
  let logs := (results.map (fun r => r.2)).flatten
  (if stores.length > 1
   then some (FHIRDefinitions.mk "" [] [] stores false)
   else stores.head?,
   logs)

/-! ### Errors, the network model and version resolution -/

/-- The error taxonomy of the loader (`errors/` directory; spec section 7).
`network` stands for an uncaught transport-level rejection (an `axios` error
propagating out of an `await` that no `try` block covers); `fsError` stands
for an uncaught file-system exception (the unguarded `readdirSync` of a
matched cache directory that has no `package` subdirectory, when it happens
outside the download `try` block). -/
inductive FplError where
  | packageLoad (fullPackageName : String) (customRegistry : Option String)
  | currentPackageLoad (fullPackageName : String)
  | incorrectWildcardVersionFormat (packageName version : String)
  | latestVersionUnavailable (packageName : String) (customRegistry : Option String)
      (isPatch : Bool)
  | network (url : String)
  | fsError (path : String)
deriving DecidableEq, Repr

/-- One entry of the build-status listing `qas.json`.  `date` models the
result of `Date.parse` on the entry's date string (only its ordering
matters). -/
structure QAEntry where
  packageId : String
  date : Int
  repo : String
deriving DecidableEq, Repr

/-- The part of an NPM-shaped registry metadata response the loader inspects:
the `dist-tags.latest` tag, the keys of the `versions` object, and the
per-version `dist.tarball` URL. -/
structure RegistryMeta where
  latest : Option String
  versions : Option (List String)
  tarballOf : String → Option String

/-- The body of a network response, by shape.  `tarball (some content)`
carries the directory tree obtained by extracting the downloaded archive;
`tarball none` models a response whose `data` is falsy.  A shape not matching
what the caller inspects behaves like missing fields, as in the source. -/
inductive RespData where
  | qas (entries : Option (List QAEntry))
  | manifest (date : Option String)
  | registry (meta : RegistryMeta)
  | tarball (content : Option Dir)
  | empty

/-- The network oracle: what `axios.get` would produce per URL.  An `error`
models a rejected request. -/
def Net := String → Except Unit RespData

/-- The explicit state threaded through `mergeDependency`: the cache root
contents, the in-process package cache, the `PackageCache.lastCurrentUpdate`
timestamp, the current wall-clock time in milliseconds, and the trace of all
URLs requested so far (every network request appends its URL). -/
structure MDState where
  fs : FS
  pc : ProcessCache
  lastCurrentUpdate : Option Int
  now : Int
  trace : List String

/-- Embeds `axiosGet`: performs one request, recording the URL in the
trace. -/
def axiosGet (net : Net) (url : String) (st : MDState) :
    Except Unit RespData × MDState :=
  (net url, { st with trace := st.trace ++ [url] })

/-- The `registry.replace(/\/$/, '')` normalization: one trailing slash is
dropped. -/
def stripTrailingSlash (registry : String) : String :=
  if strEndsWith registry "/" then dropRightStr registry 1 else registry

/-- Embeds `getDistUrl` (load.ts): query the custom registry for package
metadata, use the NPM tarball location for the requested version when present
and fall back to `{registry}/{name}/{version}` otherwise; a rejected metadata
request propagates. -/
def getDistUrl (net : Net) (registry packageName version : String)
    (st : MDState) : Except FplError String × MDState :=
  let cleaned := stripTrailingSlash registry
  let url := cleaned ++ "/" ++ packageName
  match axiosGet net url st with
  | (Except.error _, st) => (Except.error (FplError.network url), st)
  | (Except.ok d, st) =>
    let npmLocation := match d with
      | RespData.registry m => m.tarballOf version
      | _ => none
    match npmLocation with
    | some loc => (Except.ok loc, st)
    | none => (Except.ok (cleaned ++ "/" ++ packageName ++ "/" ++ version), st)

/-- The registry metadata request chain shared by `lookUpLatestVersion` and
`lookUpLatestPatchVersion`: a configured custom registry replaces both public
registries and is not retried; otherwise the primary registry is tried first
and, on rejection, the secondary one. -/
def registryChainGet (net : Net) (customRegistry : Option String)
    (packageName : String) (st : MDState) : Except Unit RespData × MDState :=
  match customRegistry with
  | some reg => axiosGet net (stripTrailingSlash reg ++ "/" ++ packageName) st
  | none =>
    match axiosGet net ("https://packages.fhir.org/" ++ packageName) st with
    | (Except.ok d, st) => (Except.ok d, st)
    | (Except.error _, st) =>
      axiosGet net ("https://packages2.fhir.org/packages/" ++ packageName) st

/-- Embeds `lookUpLatestVersion` (load.ts): the chain result must carry a
non-empty `dist-tags.latest`; anything else is a (non-patch)
`LatestVersionUnavailableError`. -/
def lookUpLatestVersion (net : Net) (customRegistry : Option String)
    (packageName : String) (st : MDState) : Except FplError String × MDState :=
  match registryChainGet net customRegistry packageName st with
  | (Except.error _, st) =>
    (Except.error (FplError.latestVersionUnavailable packageName customRegistry false), st)
  | (Except.ok d, st) =>
    let latest : Option String := match d with
      | RespData.registry m => m.latest
      | _ => none
    match latest with
    | some s =>
      if s.length ≠ 0 then (Except.ok s, st)
      else (Except.error (FplError.latestVersionUnavailable packageName customRegistry false), st)
    | none =>
      (Except.error (FplError.latestVersionUnavailable packageName customRegistry false), st)

/-- A parsed semantic version `major.minor.patch` with an optional
pre-release part (the text after the first `-`). -/
structure SemVer where
  major : Nat
  minor : Nat
  patch : Nat
  pre : Option String
deriving DecidableEq, Repr

/-- Parses `M.m.p` or `M.m.p-prerelease` (build metadata after `+` is not
modelled; the repository's version sets do not use it). -/
def parseSemVer (v : String) : Option SemVer :=
  let parts := splitOnStr v '-'
  let core := parts.headD ""
  let pre := if parts.length > 1 then some (String.intercalate "-" (parts.drop 1)) else none
  match splitOnStr core '.' with
  | [a, b, c] =>
    match charsToNat? a.data, charsToNat? b.data, charsToNat? c.data with
    | some ma, some mi, some pa => some ⟨ma, mi, pa, pre⟩
    | _, _, _ => none
  | _ => none

/-- Recognizes the `^\d+\.\d+\.x$` patch wildcard and extracts major and
minor. -/
def parsePatchWildcard (version : String) : Option (Nat × Nat) :=
  match splitOnStr version '.' with
  | [a, b, x] =>
    if x = "x" then
      match charsToNat? a.data, charsToNat? b.data with
      | some ma, some mi => some (ma, mi)
      | _, _ => none
    else none
  | _ => none

/-- Recognizes the always-invalid `^\d+\.x$` minor wildcard. -/
def isMinorWildcard (version : String) : Bool :=
  match splitOnStr version '.' with
  | [a, x] => decide (x = "x") && (charsToNat? a.data).isSome
  | _ => false

/-- The versions of a listing that satisfy the patch range `ma.mi.x`, with
their patch numbers.  A range without pre-release components excludes every
pre-release-qualified version, as node-semver does. -/
def patchCandidates (versions : List String) (ma mi : Nat) : List (String × Nat) :=
  versions.filterMap (fun v =>
    match parseSemVer v with
    | some s =>
      if s.major = ma ∧ s.minor = mi ∧ s.pre = none then some (v, s.patch) else none
    | none => none)

/-- Models `semver.maxSatisfying(versions, "ma.mi.x")`: the satisfying version
with the highest patch number (major and minor being fixed by the range,
semantic-version precedence among satisfying versions is patch-number
order). -/
def maxSatisfyingPatch (versions : List String) (ma mi : Nat) : Option String :=
  match patchCandidates versions ma mi with
  | [] => none
  | c :: rest =>
    some (rest.foldl (fun best x => if x.2 > best.2 then x else best) c).1

/-- Embeds `lookUpLatestPatchVersion` (load.ts): a malformed wildcard fails
with `IncorrectWildcardVersionFormatError` before any request; a rejected
chain, a listing without `versions`, and a range no version satisfies all fail
with the patch-flagged `LatestVersionUnavailableError`. -/
def lookUpLatestPatchVersion (net : Net) (customRegistry : Option String)
    (packageName version : String) (st : MDState) :
    Except FplError String × MDState :=
  match parsePatchWildcard version with
  | none => (Except.error (FplError.incorrectWildcardVersionFormat packageName version), st)
  | some (ma, mi) =>
    match registryChainGet net customRegistry packageName st with
    | (Except.error _, st) =>
      (Except.error (FplError.latestVersionUnavailable packageName customRegistry true), st)
    | (Except.ok d, st) =>
      let versions : Option (List String) := match d with
        | RespData.registry m => m.versions
        | _ => none
      match versions with
      | some vs =>
        match maxSatisfyingPatch vs ma mi with
        | some latest => (Except.ok latest, st)
        | none =>
          (Except.error (FplError.latestVersionUnavailable packageName customRegistry true), st)
      | none =>
        (Except.error (FplError.latestVersionUnavailable packageName customRegistry true), st)

/-! ### `mergeDependency` -/

/-- The symbolic-version resolution step at the top of `mergeDependency`:
`latest` and `X.Y.x` are resolved through the registry, a minor wildcard
`X.x` fails immediately, and every other version string passes through
unchanged. -/
def resolveVersion (net : Net) (customRegistry : Option String)
    (packageName version : String) (st : MDState) :
    Except FplError String × MDState :=
  if version = "latest" then
    lookUpLatestVersion net customRegistry packageName st
  else if (parsePatchWildcard version).isSome then
    lookUpLatestPatchVersion net customRegistry packageName version st
  else if isMinorWildcard version then
    (Except.error (FplError.incorrectWildcardVersionFormat packageName version), st)
  else
    (Except.ok version, st)

/-- Recognizes `^current(\$.+)?$`: the exact string `current`, or `current$`
followed by at least one character. -/
def isCurrentVersionString (version : String) : Bool :=
  decide (version = "current") ||
    (strStartsWith version "current$" && decide (version.length > 8))

/-- The CI branch encoded in a version string: everything after the first
`$`, absent when there is none (`version.slice(version.indexOf('$') + 1)`). -/
def branchOf (version : String) : Option String :=
  let parts := splitOnStr version '$'
  if parts.length > 1 then some (String.intercalate "$" (parts.drop 1)) else none

/-- The head of the build-status entries sorted by build date, newest first
(the sort is stable, so among equal dates the earliest listed entry wins). -/
def pickNewest : List QAEntry → Option QAEntry
  | [] => none
  | e :: rest =>
    some (rest.foldl (fun best x => if x.date > best.date then x else best) e)

/-- Reads `{cacheRoot}/{fullPackageName}/package/package.json` by exact
directory name (the `loadPath` of `mergeDependency`). -/
def readPackageJsonAt (fs : FS) (fullPackageName : String) : Option RawDef :=
  match fs.find? (fun p => p.1 = fullPackageName) with
  | some (_, dirContents) =>
    match lookupEntry dirContents "package" with
    | some (Entry.dir es) =>
      match lookupEntry es "package.json" with
      | some (Entry.file c) => some c
      | _ => none
    | _ => none
  | none => none

/-- The `current`/`current$branch` arm of `mergeDependency` for non-R5-core
packages, producing the download URL to use (`none` when the cached copy is
up to date or no refresh is needed).  When a refresh is due, the build-status
listing is fetched, filtered to the requested package and branch
(`main`/`master` by default), and the newest entry's manifest date is compared
with the cached `package.json` date; a missing or differing date schedules a
re-download, and a missing listing entry raises
`CurrentPackageLoadError`. -/
def currentBranchUrl (net : Net) (packageName version fullPackageName : String)
    (st : MDState) : Except FplError (Option String) × MDState :=
  if isCurrentPackageRefreshNeeded st.lastCurrentUpdate st.now then
    let st := { st with lastCurrentUpdate := some st.now }
    let branch := branchOf version
    match axiosGet net "https://build.fhir.org/ig/qas.json" st with
    | (Except.error _, st) =>
      (Except.error (FplError.network "https://build.fhir.org/ig/qas.json"), st)
    | (Except.ok d, st) =>
      let qaData : List QAEntry := match d with
        | RespData.qas (some es) => es
        | _ => []
      let newestPackage : Option QAEntry :=
        if qaData.length > 0 then
          let m1 := qaData.filter (fun p => p.packageId = packageName)
          let m2 := match branch with
            | none => m1.filter (fun p =>
                strEndsWith p.repo "/master/qa.json" || strEndsWith p.repo "/main/qa.json")
            | some b => m1.filter (fun p => strEndsWith p.repo ("/" ++ b ++ "/qa.json"))
          pickNewest m2
        else none
      match newestPackage with
      | none => (Except.error (FplError.currentPackageLoad fullPackageName), st)
      | some np =>
        if np.repo = "" then
          (Except.error (FplError.currentPackageLoad fullPackageName), st)
        else
          let packagePath := dropRightStr np.repo 8
          let igUrl := "https://build.fhir.org/ig/" ++ packagePath
          match axiosGet net (igUrl ++ "/package.manifest.json") st with
          | (Except.error _, st) =>
            (Except.error (FplError.network (igUrl ++ "/package.manifest.json")), st)
          | (Except.ok md, st) =>
            let manifestDate : Option String := match md with
              | RespData.manifest dd => dd
              | _ => none
            let cachedDate : Option String :=
              (readPackageJsonAt st.fs fullPackageName).bind (fun c => c.date)
            if manifestDate ≠ cachedDate then
              (Except.ok (some (igUrl ++ "/package.tgz")), st)
            else
              (Except.ok none, st)
  else
    (Except.ok none, st)

/-- Embeds the `doDownload` closure of `mergeDependency`: fetch the tarball as
binary; on a body, extract it, normalize the layout, replace the cache
directory for the package and reload from the cache path; on an empty body
keep whatever was loaded before.  Both a rejected request and a throwing
reload (the whole closure runs inside the caller's `try` block) propagate to
the caller as `Except.error`, which may try a fallback URL. -/
def doDownload (net : Net) (fullPackageName url : String)
    (loadedPackage : Option LoadedPackage) (st : MDState) :
    Except Unit (Option LoadedPackage) × MDState :=
  match axiosGet net url st with
  | (Except.error _, st) => (Except.error (), st)
  | (Except.ok (RespData.tarball (some content)), st) =>
    let cleaned := cleanCachedPackage content
    let st1 := { st with fs := replaceDir st.fs fullPackageName cleaned }
    let r := loadFromPath st1.fs st1.pc fullPackageName
    let st2 := { st1 with pc := r.2 }
    match r.1 with
    | Except.ok lp => (Except.ok lp, st2)
    | Except.error _ => (Except.error (), st2)
  | (Except.ok _, st) => (Except.ok loadedPackage, st)

/-- The download section of `mergeDependency`: try the computed URL; when that
URL is the primary public registry URL, retry once against the secondary
registry and convert a second rejection into a `PackageLoadError` without
registry identity; any other rejected URL becomes a `PackageLoadError`
carrying the custom registry identity. -/
def downloadAndFallback (net : Net) (customRegistry : Option String)
    (packageName version fullPackageName packageUrl : String)
    (loadedPackage : Option LoadedPackage) (st : MDState) :
    Except FplError (Option LoadedPackage) × MDState :=
  match doDownload net fullPackageName packageUrl loadedPackage st with
  | (Except.ok lp, st) => (Except.ok lp, st)
  | (Except.error _, st) =>
    if packageUrl = "https://packages.fhir.org/" ++ packageName ++ "/" ++ version then
      let url2 := "https://packages2.fhir.org/packages/" ++ packageName ++ "/" ++ version
      match doDownload net fullPackageName url2 loadedPackage st with
      | (Except.ok lp, st) => (Except.ok lp, st)
      | (Except.error _, st) =>
        (Except.error (FplError.packageLoad fullPackageName none), st)
    else
      (Except.error (FplError.packageLoad fullPackageName customRegistry), st)

/-- The tail of `mergeDependency` after the local-cache probes: decide on a
download URL (always for R5-core `current`; listing-and-date-driven for other
`current` versions; registry-driven when nothing is cached; none otherwise),
download when a URL was decided, and finally merge the loaded package into the
target store or fail with `PackageLoadError`. -/
def mergeDependencyRest (net : Net) (customRegistry : Option String)
    (packageName version fullPackageName : String)
    (loadedPackage : Option LoadedPackage) (fhirDefs : FHIRDefinitions)
    (st : MDState) : Except FplError FHIRDefinitions × MDState :=
  let next : Except FplError (Option String) × MDState :=
    if strStartsWith packageName "hl7.fhir.r5." ∧ version = "current" then
      (Except.ok (some ("https://build.fhir.org/" ++ packageName ++ ".tgz")), st)
    else if isCurrentVersionString version then
      currentBranchUrl net packageName version fullPackageName st
    else if loadedPackage = none then
      match customRegistry with
      | some reg =>
        match getDistUrl net reg packageName version st with
        | (Except.error e, st) => (Except.error e, st)
        | (Except.ok url, st) => (Except.ok (some url), st)
      | none =>
        (Except.ok (some ("https://packages.fhir.org/" ++ packageName ++ "/" ++ version)),
         st)
    else
      (Except.ok none, st)
  match next with
  | (Except.error e, st) => (Except.error e, st)
  | (Except.ok packageUrl, st) =>
    let final : Except FplError (Option LoadedPackage) × MDState :=
      match packageUrl with
      | none => (Except.ok loadedPackage, st)
      | some url =>
        downloadAndFallback net customRegistry packageName version fullPackageName url
          loadedPackage st
    match final with
    | (Except.error e, st) => (Except.error e, st)
    | (Except.ok finalLoaded, st) =>
      match finalLoaded with
      | none => (Except.error (FplError.packageLoad fullPackageName customRegistry), st)
      | some lp => (Except.ok (merge lp fhirDefs), st)

/-- Embeds `mergeDependency` (load.ts): resolve the symbolic version, try the
local cache (a throwing cache read here is outside any `try` block and
propagates out), apply the `dev` → `current` fallback, then decide on a
download, download and merge via `mergeDependencyRest`. -/
def mergeDependency (net : Net) (customRegistry : Option String)
    (packageName version0 : String) (fhirDefs : FHIRDefinitions)
    (st : MDState) : Except FplError FHIRDefinitions × MDState :=
  match resolveVersion net customRegistry packageName version0 st with
  | (Except.error e, st) => (Except.error e, st)
  | (Except.ok version1, st) =>
    let fullPackageName1 := packageName ++ "#" ++ version1
    let r1 := loadFromPath st.fs st.pc fullPackageName1
    let st1 := { st with pc := r1.2 }
    match r1.1 with
    | Except.error _ => (Except.error (FplError.fsError fullPackageName1), st1)
    | Except.ok lp1 =>
      if version1 = "dev" ∧ lp1 = none then
        let r2 := loadFromPath st1.fs st1.pc (packageName ++ "#current")
        let st2 := { st1 with pc := r2.2 }
        match r2.1 with
        | Except.error _ =>
          (Except.error (FplError.fsError (packageName ++ "#current")), st2)
        | Except.ok lp2 =>
          mergeDependencyRest net customRegistry packageName "current"
            (packageName ++ "#current") lp2 fhirDefs st2
      else
        mergeDependencyRest net customRegistry packageName version1 fullPackageName1
          lp1 fhirDefs st1

/-! ### Concrete example data for witnesses and counterexamples -/

/-- Example definition mirroring the repository test fixture `SimpleProfile`,
whose version string itself contains the reserved separator. -/
def exSimpleProfile : RawDef :=
  { id := some "SimpleProfile", name := some "SimpleProfile",
    version := some "1.0.0|a", payload := 1 }

/-- Example store holding only `exSimpleProfile`. -/
def exSimpleStore : FHIRDefinitions :=
  FHIRDefinitions.mk "" [exSimpleProfile] [] [] false

/-- Example profile definition with an ordinary version. -/
def exVitalSigns : RawDef :=
  { id := some "vitalsigns", name := some "observation-vitalsigns",
    url := some "http://hl7.org/fhir/StructureDefinition/vitalsigns",
    version := some "4.0.1", category := TypeCategory.profile, payload := 2 }

/-- Example store holding only `exVitalSigns`. -/
def exVitalStore : FHIRDefinitions :=
  FHIRDefinitions.mk "" [exVitalSigns] [] [] false

/-- A `Condition` resource carrying version 4.0.2 (depth-1 child in the
parent-before-children scenario of the repository tests). -/
def exCondition402 : RawDef :=
  { id := some "Condition", version := some "4.0.2",
    category := TypeCategory.resource, payload := 3 }

/-- A `Condition` resource carrying version 4.0.3 (depth-2 grandchild in the
same scenario). -/
def exCondition403 : RawDef :=
  { id := some "Condition", version := some "4.0.3",
    category := TypeCategory.resource, payload := 4 }

/-- A child store without a matching definition of its own, whose child does
hold a same-id definition. -/
def exChildWithGrandchild : FHIRDefinitions :=
  FHIRDefinitions.mk "package1" [] []
    [FHIRDefinitions.mk "package3" [exCondition403] [] [] false] false

/-- A later sibling store holding the matching definition directly. -/
def exSecondChild : FHIRDefinitions :=
  FHIRDefinitions.mk "package2" [exCondition402] [] [] false

/-- A version string satisfies the patch range `ma.mi.x`: it parses as a
semantic version with that major and minor and carries no pre-release
qualifier (a range without pre-release components never accepts a
pre-release-qualified version). -/
def satisfiesPatch (v : String) (ma mi : Nat) : Bool :=
  match parseSemVer v with
  | some s => decide (s.major = ma) && decide (s.minor = mi) && decide (s.pre = none)
  | none => false

/-- The patch number of a version string (0 when unparseable); among versions
satisfying one patch range, semantic-version precedence is exactly the order
of these numbers. -/
def patchNumOf (v : String) : Nat :=
  match parseSemVer v with
  | some s => s.patch
  | none => 0

/-- Registry metadata for the patch-wildcard witness: versions 2.0.0, 2.0.1
and 2.0.2-snapshot1, mirroring the repository test fixture. -/
def exPatchMeta : RegistryMeta :=
  { latest := none, versions := some ["2.0.0", "2.0.1", "2.0.2-snapshot1"],
    tarballOf := fun _ => none }

/-- Network oracle serving `exPatchMeta` at the primary registry URL. -/
def exPatchNet : Net := fun url =>
  if url = "https://packages.fhir.org/hl7.patches.with.snapshots" then
    Except.ok (RespData.registry exPatchMeta)
  else Except.error ()

/-- Initial state for the patch-wildcard witness. -/
def exPatchSt : MDState :=
  { fs := [], pc := [], lastCurrentUpdate := none, now := 0, trace := [] }

/-- The state after the one registry request of the patch-wildcard
witness. -/
def exPatchSt2 : MDState :=
  { exPatchSt with trace := ["https://packages.fhir.org/hl7.patches.with.snapshots"] }

/-- A merge function for the batch-loading witness: the self-signed package
rejects with a certificate error, everything else succeeds (mirroring the
repository test mock). -/
def exFailMerge : String → Option String → FHIRDefinitions → Except String FHIRDefinitions :=
  fun pkgId _ _ =>
    if pkgId = "self-signed.package" then
      Except.error "self signed certificate in certificate chain"
    else Except.ok emptyFHIRDefs

/-- Contents of a correctly-shaped cached package directory for the R5-core
counterexample. -/
def exR5CacheDir : Dir :=
  [("package", Entry.dir [("package.json", Entry.file { payload := 1 })])]

/-- The extracted tarball served by the build server in the R5-core
counterexample. -/
def exR5Tarball : Dir :=
  [("package", Entry.dir [("package.json", Entry.file { payload := 9 })])]

/-- Network oracle serving the R5-core build tarball. -/
def exR5Net : Net := fun url =>
  if url = "https://build.fhir.org/hl7.fhir.r5.core.tgz" then
    Except.ok (RespData.tarball (some exR5Tarball))
  else Except.error ()

/-- A state whose cache already contains `hl7.fhir.r5.core#current`. -/
def exR5St : MDState :=
  { fs := [("hl7.fhir.r5.core#current", exR5CacheDir)], pc := [],
    lastCurrentUpdate := none, now := 0, trace := [] }

/-- The `package.json` record of the cached plain-version witness package. -/
def exCachedPkgJson : RawDef := { date := some "20200101000000", payload := 1 }

/-- A second definition file of the cached plain-version witness package. -/
def exCachedTiger : RawDef := { id := some "Tiger", payload := 2 }

/-- Contents of the cached `sushi-test#0.1.0` directory. -/
def exCacheDir : Dir :=
  [("package", Entry.dir
    [("package.json", Entry.file exCachedPkgJson),
     ("tiger.json", Entry.file exCachedTiger)])]

/-- A state whose cache already contains `sushi-test#0.1.0`. -/
def exCachedSt : MDState :=
  { fs := [("sushi-test#0.1.0", exCacheDir)], pc := [],
    lastCurrentUpdate := none, now := 0, trace := [] }

/-- What loading `sushi-test#0.1.0` from the witness cache produces. -/
def exCachedLp : LoadedPackage :=
  { package := "sushi-test#0.1.0", defs := [exCachedPkgJson, exCachedTiger],
    packageJson := some exCachedPkgJson }

/-- A network oracle that rejects every request (the plain-version witness
must not depend on the network at all). -/
def exDeadNet : Net := fun _ => Except.error ()

/-! ## Theorems -/

/-- C10: `loadDependencies` applied to an empty request list resolves to
`undefined` (no store at all) and logs nothing — the zero-request edge case
falls through `fhirDefs[0]` rather than producing an empty aggregator
store. -/
theorem loadDependencies_empty_returns_none
    (mergeFn : String → Option String → FHIRDefinitions → Except String FHIRDefinitions) :
    loadDependencies mergeFn [] = (none, []) := rfl

/-- C3 (refuting the claimed 24-hour refresh window): with the last refresh
25 hours in the past (`lastCurrentUpdate = 0`, `now = 90000000` ms, so more
than the 86400000 ms window has elapsed), `isCurrentPackageRefreshNeeded`
still answers `false` — the source subtracts the timestamps in the wrong
order, so once a refresh has happened the predicate never holds again. -/
theorem isCurrentPackageRefreshNeeded_false_after_25_hours :
    isCurrentPackageRefreshNeeded (some 0) 90000000 = false ∧
      (90000000 : Int) - 0 > 86400000 := by
  decide

/-- C2 (refuting both directions of the claimed normalization): when a
`package` directory already exists, `cleanCachedPackage` does not leave the
directory alone but moves the sibling entry into it; and when no `package`
entry exists, it does not create one but leaves the directory untouched. -/
theorem cleanCachedPackage_claim_counterexample :
    cleanCachedPackage [("package", Entry.dir []), ("a.json", Entry.file {})] =
        [("package", Entry.dir [("a.json", Entry.file {})])] ∧
      cleanCachedPackage [("a.json", Entry.file {})] = [("a.json", Entry.file {})] := by
  exact ⟨rfl, rfl⟩

/-- C2 amended: layout normalization does nothing when no `package` entry
exists; when an entry named `package` exists and is a directory, every other
top-level entry is moved into it, preserving names and nested structure (each
entry is carried over as a whole subtree). -/
theorem cleanCachedPackage_amended (entries : Dir) :
    (entries.find? (fun e => e.1 = "package") = none →
        cleanCachedPackage entries = entries) ∧
      (∀ nm ps, entries.find? (fun e => e.1 = "package") = some (nm, Entry.dir ps) →
        cleanCachedPackage entries =
          [("package",
            Entry.dir (ps ++ entries.filter (fun e => ¬(e.1 = "package"))))]) := by
  constructor
  · intro h
    simp only [cleanCachedPackage, h]
  · intro nm ps h
    simp only [cleanCachedPackage, h]

/-- Witness for the amended C2 theorem at a concrete wrongly-shaped package
directory. -/
theorem cleanCachedPackage_amended_witness :
    cleanCachedPackage
        [("package", Entry.dir [("x.json", Entry.file {})]), ("a.json", Entry.file {})] =
      [("package",
        Entry.dir ([("x.json", Entry.file {})] ++
          List.filter (fun e => ¬(e.1 = "package"))
            [("package", Entry.dir [("x.json", Entry.file {})]), ("a.json", Entry.file {})]))] :=
  (cleanCachedPackage_amended _).2 "package" [("x.json", Entry.file {})] rfl

/-- C8 (refuting symmetric case-insensitivity): a cached directory whose name
equals the requested key up to letter case is not found when the requested key
itself carries uppercase letters — the source lowercases only the directory
name, never the key — and the miss is reported as absence, not as an
error. -/
theorem loadFromPath_case_counterexample :
    (loadFromPath [("sushi-test#0.1.0", [("package", Entry.dir [])])] []
        "SUSHI-test#0.1.0").1 = Except.ok none ∧
      lowerString "sushi-test#0.1.0" = lowerString "SUSHI-test#0.1.0" := by
  exact ⟨rfl, by decide⟩

/-- C8 amended: `loadFromPath` returns a loaded package exactly when the key
is already memoized or the first cache directory whose lowercased name equals
the requested key taken verbatim has a `package` subdirectory (directory names
are matched case-insensitively, the key is not); when no directory name
matches, it reports absence as `null`, not as an error; when the matching
directory lacks a `package` subdirectory, the unguarded directory read
throws. -/
theorem loadFromPath_found_iff (fs : FS) (pc : ProcessCache) (t : String) :
    ((∃ lp, (loadFromPath fs pc t).1 = Except.ok (some lp)) ↔
        ((pcGet pc t).isSome = true ∨
          ∃ p, fs.find? (fun q => lowerString q.1 = t) = some p ∧
            hasPackageDir p.2 = true)) ∧
      (pcGet pc t = none → fs.find? (fun q => lowerString q.1 = t) = none →
        (loadFromPath fs pc t).1 = Except.ok none) ∧
      (∀ nm d, pcGet pc t = none →
        fs.find? (fun q => lowerString q.1 = t) = some (nm, d) →
        hasPackageDir d = false →
        (loadFromPath fs pc t).1 = Except.error ()) := by
  refine ⟨?_, ?_, ?_⟩
  · cases h : pcGet pc t with
    | some lp =>
      simp only [loadFromPath, h, Option.isSome_some, true_or, iff_true]
      exact ⟨lp, rfl⟩
    | none =>
      cases hf : fs.find? (fun q => lowerString q.1 = t) with
      | none =>
        simp only [loadFromPath, h, hf, Option.isSome_none, Bool.false_eq_true, false_or]
        constructor
        · rintro ⟨lp, hlp⟩
          cases hlp
        · rintro ⟨p, hp, -⟩
          cases hp
      | some pr =>
        obtain ⟨nm, d⟩ := pr
        cases hd : lookupEntry d "package" with
        | none =>
          simp only [loadFromPath, h, hf, hd, Option.isSome_none, Bool.false_eq_true,
            false_or]
          constructor
          · rintro ⟨lp, hlp⟩
            cases hlp
          · rintro ⟨p, hp, hpd⟩
            injection hp with hp
            rw [← hp] at hpd
            simp [hasPackageDir, hd] at hpd
        | some e =>
          cases e with
          | file c =>
            simp only [loadFromPath, h, hf, hd, Option.isSome_none, Bool.false_eq_true,
              false_or]
            constructor
            · rintro ⟨lp, hlp⟩
              cases hlp
            · rintro ⟨p, hp, hpd⟩
              injection hp with hp
              rw [← hp] at hpd
              simp [hasPackageDir, hd] at hpd
          | dir es =>
            simp only [loadFromPath, h, hf, hd, Option.isSome_none, Bool.false_eq_true,
              false_or]
            constructor
            · intro _
              exact ⟨(nm, d), rfl, by simp [hasPackageDir, hd]⟩
            · intro _
              exact ⟨_, rfl⟩
  · intro h hf
    simp only [loadFromPath, h, hf]
  · intro nm d h hf hpd
    cases hd : lookupEntry d "package" with
    | none => simp only [loadFromPath, h, hf, hd]
    | some e =>
      cases e with
      | file c => simp only [loadFromPath, h, hf, hd]
      | dir es =>
        simp [hasPackageDir, hd] at hpd

/-- Witness for the amended C8 theorem at the shape of the repository's own
`sushi-test-no-package#current` fixture: a case-matching cache directory
without a `package` subdirectory makes the load throw. -/
theorem loadFromPath_found_iff_witness :
    (loadFromPath [("sushi-test-no-package#current", [("other.json", Entry.file {})])] []
        "sushi-test-no-package#current").1 = Except.error () :=
  (loadFromPath_found_iff _ _ _).2.2 "sushi-test-no-package#current"
    [("other.json", Entry.file {})] rfl rfl rfl

/-- C9: once a cache key is memoized in the ProcessCache, a re-download that
replaces the on-disk directory is invisible to the loader — `doDownload`
(which extracts the fresh archive, replaces the cache directory and reloads
from the cache path) still returns the originally memoized record, whatever
the freshly downloaded bytes were. -/
theorem doDownload_returns_memoized (net : Net) (key url : String)
    (lp0 : Option LoadedPackage) (st : MDState) (r : LoadedPackage) (content : Dir)
    (hnet : net url = Except.ok (RespData.tarball (some content)))
    (hmem : pcGet st.pc key = some r) :
    (doDownload net key url lp0 st).1 = Except.ok (some r) := by
  simp only [doDownload, axiosGet, hnet, loadFromPath, hmem]

/-- Helper: a hit of `firstSome` is one of the list entries. -/
theorem firstSome_mem {l : List (Option RawDef)} {d : RawDef}
    (h : firstSome l = some d) : ∃ o ∈ l, o = some d := by
  induction l with
  | nil => simp [firstSome] at h
  | cons o rest ih =>
    cases o with
    | some x =>
      simp only [firstSome] at h
      exact ⟨some x, List.mem_cons_self _ _, h⟩
    | none =>
      simp only [firstSome] at h
      obtain ⟨o2, ho2, he⟩ := ih h
      exact ⟨o2, List.mem_cons_of_mem _ ho2, he⟩

/-- Helper: a versioned key-space hit carries exactly the requested
version. -/
theorem fishInList_version {key v : String} {cat : TypeCategory}
    {field : RawDef → Option String} {own : List RawDef} {d : RawDef}
    (h : fishInList key (some v) cat field own = some d) : d.version = some v := by
  have hp := List.find?_some h
  simp only [Bool.and_eq_true, versionOk, decide_eq_true_eq] at hp
  exact hp.2

/-- Helper: a versioned own-node hit carries exactly the requested
version. -/
theorem fishOwn_version {key v : String} {types : List TypeCategory}
    {own : List RawDef} {d : RawDef}
    (h : fishOwn key (some v) types own = some d) : d.version = some v := by
  unfold fishOwn at h
  obtain ⟨o, ho, he⟩ := firstSome_mem h
  obtain ⟨cat, _, rfl⟩ := List.mem_map.mp ho
  obtain ⟨o2, ho2, he2⟩ := firstSome_mem he
  simp only [List.mem_cons, List.not_mem_nil, or_false] at ho2
  rcases ho2 with h1 | h2 | h3
  · exact fishInList_version (h1 ▸ he2)
  · exact fishInList_version (h2 ▸ he2)
  · exact fishInList_version (h3 ▸ he2)

/-- Helper: string concatenation concatenates the character data. -/
theorem data_append (s t : String) : (s ++ t).data = s.data ++ t.data := by
  cases s
  cases t
  rfl

/-- Helper: the first-separator split in explicit form, for a base free of
separators. -/
theorem splitFirstBarChars_append (bs vs : List Char) (h : '|' ∉ bs) :
    splitFirstBarChars (bs ++ '|' :: vs) = (bs, some vs) := by
  induction bs with
  | nil => simp [splitFirstBarChars]
  | cons c rest ih =>
    have hc : ¬(c = '|') := fun hh => h (hh ▸ List.mem_cons_self _ _)
    have hrest : '|' ∉ rest := fun hm => h (List.mem_cons_of_mem _ hm)
    simp only [List.cons_append, splitFirstBarChars, List.append_eq]
    rw [if_neg hc, ih hrest]

/-- Helper: splitting `base|ver` for a separator-free base and non-empty
version yields exactly `(base, ver)`. -/
theorem splitFirstBar_append (base ver : String) (hbase : '|' ∉ base.data)
    (hver : ver.data ≠ []) :
    splitFirstBar (base ++ "|" ++ ver) = (base, some ver) := by
  have hdata : (base ++ "|" ++ ver).data = base.data ++ '|' :: ver.data := by
    rw [data_append, data_append, List.append_assoc]
    rfl
  unfold splitFirstBar
  rw [hdata, splitFirstBarChars_append base.data ver.data hbase]
  obtain ⟨c, cs, hv⟩ : ∃ c cs, ver.data = c :: cs := by
    cases hvd : ver.data with
    | nil => exact absurd hvd hver
    | cons c cs => exact ⟨c, cs, rfl⟩
  rw [hv]
  show (String.mk base.data, some (String.mk (c :: cs))) = (base, some ver)
  rw [← hv]

/-- Helper: whatever the queue, a versioned search only ever returns a
definition carrying exactly the requested version. -/
theorem bfsFish_version {item base ver : String} {types : List TypeCategory}
    {d : RawDef} (hsplit : splitFirstBar item = (base, some ver)) :
    ∀ fuel q, bfsFish item types fuel q = some d → d.version = some ver := by
  intro fuel
  induction fuel with
  | zero =>
    intro q h
    simp [bfsFish] at h
  | succ n ih =>
    intro q
    cases q with
    | nil =>
      intro h
      simp [bfsFish] at h
    | cons t rest =>
      intro h
      cases ho : fishOwnItem item types t.ownDefinitions with
      | some r =>
        simp only [bfsFish, ho] at h
        have hfish : fishOwn base (some ver) types t.ownDefinitions = some d := by
          have ho2 := ho
          simp only [fishOwnItem, hsplit] at ho2
          rw [ho2, h]
        exact fishOwn_version hfish
      | none =>
        simp only [bfsFish, ho] at h
        exact ih _ h

/-- C4 amended: for every store and every lookup string of the form
`base|ver` whose base is separator-free and whose version part is non-empty,
`fishForFHIR` treats the text after the FIRST separator (which may itself
contain separators) as the requested version, and any returned definition has
a `version` attribute equal to it exactly — in particular a definition lacking
a version attribute is never returned for a versioned query. -/
theorem fishForFHIR_versioned_exact (defs : FHIRDefinitions) (base ver : String)
    (types : List TypeCategory) (d : RawDef)
    (hbase : '|' ∉ base.data) (hver : ver.data ≠ [])
    (h : fishForFHIR defs (base ++ "|" ++ ver) types = some d) :
    d.version = some ver := by
  have hsplit := splitFirstBar_append base ver hbase hver
  exact bfsFish_version hsplit _ _ h

/-- Witness for the amended C4 theorem: fishing `vitalsigns|4.0.1` in a
concrete store returns the profile whose version is exactly `4.0.1`. -/
theorem fishForFHIR_versioned_exact_witness :
    ('|' ∉ "vitalsigns".data) ∧ "4.0.1".data ≠ [] ∧
      fishForFHIR exVitalStore ("vitalsigns" ++ "|" ++ "4.0.1") [] = some exVitalSigns ∧
      exVitalSigns.version = some "4.0.1" :=
  ⟨by decide, by decide, by decide,
    fishForFHIR_versioned_exact exVitalStore "vitalsigns" "4.0.1" [] exVitalSigns
      (by decide) (by decide) (by decide)⟩

/-- C4 (refuting the last-occurrence split): fishing
`SimpleProfile|1.0.0|a` — mirroring the repository test — returns the
definition whose version is `1.0.0|a`, the text after the FIRST separator; had
the string been split at the last separator, the requested version would have
been `a` and this candidate could not have been returned. -/
theorem fishForFHIR_last_separator_counterexample :
    fishForFHIR exSimpleStore "SimpleProfile|1.0.0|a" [] = some exSimpleProfile ∧
      exSimpleProfile.version = some "1.0.0|a" ∧
      ¬(exSimpleProfile.version = some "a") := by
  decide

/-- Helper: the breadth-first queue returns the own-node hit of the first
queue entry that has one, regardless of anything queued behind it (in
particular regardless of any grandchild), given enough fuel. -/
theorem bfsFish_first_hit {item : String} {types : List TypeCategory} {d : RawDef} :
    ∀ (q1 : List FHIRDefinitions) (c : FHIRDefinitions) (q2 : List FHIRDefinitions)
      (fuel : Nat), q1.length + 1 ≤ fuel →
      (∀ t ∈ q1, fishOwnItem item types t.ownDefinitions = none) →
      fishOwnItem item types c.ownDefinitions = some d →
      bfsFish item types fuel (q1 ++ c :: q2) = some d := by
  intro q1
  induction q1 with
  | nil =>
    intro c q2 fuel hfuel _ hc
    cases fuel with
    | zero => omega
    | succ n => simp only [List.nil_append, bfsFish, hc]
  | cons t q1' ih =>
    intro c q2 fuel hfuel hall hc
    cases fuel with
    | zero => simp at hfuel
    | succ n =>
      have ht : fishOwnItem item types t.ownDefinitions = none :=
        hall t (List.mem_cons_self _ _)
      simp only [List.cons_append, bfsFish, ht, List.append_eq]
      have hassoc : (q1' ++ c :: q2) ++ t.childFHIRDefs
          = q1' ++ c :: (q2 ++ t.childFHIRDefs) := by
        simp [List.append_assoc]
      rw [hassoc]
      refine ih c (q2 ++ t.childFHIRDefs) n ?_ (fun u hu => hall u (List.mem_cons_of_mem _ hu)) hc
      simp only [List.length_cons] at hfuel
      omega

/-- Helper: node counting distributes over list concatenation. -/
theorem nodeSizeList_append (a b : List FHIRDefinitions) :
    nodeSizeList (a ++ b) = nodeSizeList a + nodeSizeList b := by
  induction a with
  | nil => simp only [List.nil_append, nodeSizeList, Nat.zero_add]
  | cons t rest ih =>
    simp only [List.cons_append, nodeSizeList, List.append_eq, ih]
    omega

/-- Helper: every store tree has at least one node. -/
theorem nodeSize_pos (t : FHIRDefinitions) : 1 ≤ nodeSize t := by
  cases t with
  | mk p own pjs cs flag =>
    rw [nodeSize]
    omega

/-- Helper: a list of trees has at least as many nodes as entries. -/
theorem length_le_nodeSizeList (l : List FHIRDefinitions) :
    l.length ≤ nodeSizeList l := by
  induction l with
  | nil => simp [nodeSizeList]
  | cons t rest ih =>
    have := nodeSize_pos t
    rw [List.length_cons, nodeSizeList]
    omega

/-- C5: `fishForFHIR` searches the current node first and then the children
breadth-first across siblings in insertion order before descending to any
grandchild: whenever the root has no own match and a depth-1 child holds a
matching definition, the lookup returns the own match of the first such child,
whatever same-id definitions any grandchild — in particular a grandchild of an
earlier sibling — may hold. -/
theorem fishForFHIR_shallower_child_wins
    (pkg : String) (own : List RawDef) (pjs : List (String × Option RawDef))
    (flag : Bool) (pre post : List FHIRDefinitions) (c : FHIRDefinitions)
    (item : String) (types : List TypeCategory) (d : RawDef)
    (hroot : fishOwnItem item types own = none)
    (hpre : ∀ t ∈ pre, fishOwnItem item types t.ownDefinitions = none)
    (hc : fishOwnItem item types c.ownDefinitions = some d) :
    fishForFHIR (FHIRDefinitions.mk pkg own pjs (pre ++ c :: post) flag) item types
      = some d := by
  unfold fishForFHIR
  have hsz : nodeSize (FHIRDefinitions.mk pkg own pjs (pre ++ c :: post) flag)
      = nodeSizeList (pre ++ c :: post) + 1 := by
    rw [nodeSize]
    omega
  rw [hsz]
  simp only [bfsFish, FHIRDefinitions.ownDefinitions, hroot,
    FHIRDefinitions.childFHIRDefs, List.nil_append]
  refine bfsFish_first_hit pre c post _ ?_ hpre hc
  have h1 := length_le_nodeSizeList pre
  have h2 := nodeSize_pos c
  have h3 : nodeSizeList (pre ++ c :: post)
      = nodeSizeList pre + (nodeSize c + nodeSizeList post) := by
    rw [nodeSizeList_append]
    simp only [nodeSizeList]
  omega

/-- Witness for C5 at the concrete scenario of the repository test: child 1
(no own `Condition`) has a grandchild holding `Condition` 4.0.3, child 2 holds
`Condition` 4.0.2 directly; the lookup returns the shallower 4.0.2. -/
theorem fishForFHIR_shallower_child_wins_witness :
    fishForFHIR
        (FHIRDefinitions.mk "" [] [] [exChildWithGrandchild, exSecondChild] false)
        "Condition" [TypeCategory.resource] = some exCondition402 :=
  fishForFHIR_shallower_child_wins "" [] [] false [exChildWithGrandchild] []
    exSecondChild "Condition" [TypeCategory.resource] exCondition402
    (by decide) (by decide) (by decide)

/-- Helper: the satisfying-candidate list contains exactly the listed
versions that satisfy the patch range, paired with their patch numbers. -/
theorem mem_patchCandidates {versions : List String} {ma mi : Nat}
    {vp : String × Nat} :
    vp ∈ patchCandidates versions ma mi ↔
      vp.1 ∈ versions ∧ satisfiesPatch vp.1 ma mi = true ∧ vp.2 = patchNumOf vp.1 := by
  unfold patchCandidates
  rw [List.mem_filterMap]
  constructor
  · rintro ⟨a, ha, hf⟩
    cases hs : parseSemVer a with
    | none =>
      simp only [hs] at hf
      cases hf
    | some s =>
      simp only [hs] at hf
      by_cases hcond : s.major = ma ∧ s.minor = mi ∧ s.pre = none
      · rw [if_pos hcond] at hf
        injection hf with hf2
        rw [← hf2]
        refine ⟨ha, ?_, ?_⟩
        · simp [satisfiesPatch, hs, hcond.1, hcond.2.1, hcond.2.2]
        · simp [patchNumOf, hs]
      · rw [if_neg hcond] at hf
        cases hf
  · rintro ⟨hmem, hsat, hnum⟩
    refine ⟨vp.1, hmem, ?_⟩
    unfold satisfiesPatch at hsat
    cases hs : parseSemVer vp.1 with
    | none =>
      simp only [hs] at hsat
      cases hsat
    | some s =>
      simp only [hs, Bool.and_eq_true, decide_eq_true_eq] at hsat
      simp only [hs]
      rw [if_pos ⟨hsat.1.1, hsat.1.2, hsat.2⟩]
      have hpn : vp.2 = s.patch := by
        rw [hnum]
        simp [patchNumOf, hs]
      rw [← hpn]

/-- Helper: folding for the largest patch number returns a list member that
dominates every member. -/
theorem foldl_maxPatch (c : String × Nat) (rest : List (String × Nat)) :
    (rest.foldl (fun best x => if x.2 > best.2 then x else best) c) ∈ c :: rest ∧
      ∀ y ∈ c :: rest,
        y.2 ≤ (rest.foldl (fun best x => if x.2 > best.2 then x else best) c).2 := by
  induction rest generalizing c with
  | nil =>
    refine ⟨List.mem_cons_self _ _, ?_⟩
    intro y hy
    rcases List.mem_cons.mp hy with h | h
    · exact h ▸ Nat.le_refl _
    · exact absurd h (List.not_mem_nil _)
  | cons x rest ih =>
    rw [List.foldl_cons]
    obtain ⟨ihmem, ihbound⟩ := ih (if x.2 > c.2 then x else c)
    have hpickx : x.2 ≤ (if x.2 > c.2 then x else c).2 := by
      by_cases hgt : x.2 > c.2
      · rw [if_pos hgt]
      · rw [if_neg hgt]
        omega
    have hpickc : c.2 ≤ (if x.2 > c.2 then x else c).2 := by
      by_cases hgt : x.2 > c.2
      · rw [if_pos hgt]
        omega
      · rw [if_neg hgt]
    constructor
    · rcases List.mem_cons.mp ihmem with h | h
      · rw [h]
        by_cases hgt : x.2 > c.2
        · rw [if_pos hgt]
          exact List.mem_cons_of_mem _ (List.mem_cons_self _ _)
        · rw [if_neg hgt]
          exact List.mem_cons_self _ _
      · exact List.mem_cons_of_mem _ (List.mem_cons_of_mem _ h)
    · intro y hy
      have hpick := ihbound _ (List.mem_cons_self _ _)
      rcases List.mem_cons.mp hy with h | h
      · rw [h]
        exact Nat.le_trans hpickc hpick
      · rcases List.mem_cons.mp h with h2 | h2
        · rw [h2]
          exact Nat.le_trans hpickx hpick
        · exact ihbound y (List.mem_cons_of_mem _ h2)

/-- Helper: a successful `maxSatisfying` result is a listed, satisfying
version that dominates every satisfying listed version. -/
theorem maxSatisfyingPatch_some {versions : List String} {ma mi : Nat} {v : String}
    (h : maxSatisfyingPatch versions ma mi = some v) :
    v ∈ versions ∧ satisfiesPatch v ma mi = true ∧
      ∀ w ∈ versions, satisfiesPatch w ma mi = true → patchNumOf w ≤ patchNumOf v := by
  unfold maxSatisfyingPatch at h
  cases hc : patchCandidates versions ma mi with
  | nil =>
    rw [hc] at h
    cases h
  | cons c rest =>
    rw [hc] at h
    injection h with hv
    obtain ⟨hmem, hbound⟩ := foldl_maxPatch c rest
    have hfmem := mem_patchCandidates.mp (hc ▸ hmem)
    rw [hv] at hfmem
    refine ⟨hfmem.1, hfmem.2.1, ?_⟩
    intro w hw hsw
    have hwc : (w, patchNumOf w) ∈ patchCandidates versions ma mi :=
      mem_patchCandidates.mpr ⟨hw, hsw, rfl⟩
    have hb := hbound (w, patchNumOf w) (hc ▸ hwc)
    have hv2 : (rest.foldl (fun best x => if x.2 > best.2 then x else best) c).2
        = patchNumOf v := by
      have := hfmem.2.2
      rw [← hv] at this ⊢
      exact (mem_patchCandidates.mp (hc ▸ hmem)).2.2
    rw [hv2] at hb
    exact hb

/-- Helper: a failed `maxSatisfying` means no listed version satisfies the
range. -/
theorem maxSatisfyingPatch_none {versions : List String} {ma mi : Nat}
    (h : maxSatisfyingPatch versions ma mi = none) :
    ∀ w ∈ versions, satisfiesPatch w ma mi = false := by
  intro w hw
  by_contra hne
  have hsw : satisfiesPatch w ma mi = true := by
    cases hxx : satisfiesPatch w ma mi
    · exact absurd hxx hne
    · rfl
  have hwc : (w, patchNumOf w) ∈ patchCandidates versions ma mi :=
    mem_patchCandidates.mpr ⟨hw, hsw, rfl⟩
  unfold maxSatisfyingPatch at h
  cases hc : patchCandidates versions ma mi with
  | nil =>
    rw [hc] at hwc
    exact absurd hwc (List.not_mem_nil _)
  | cons c rest =>
    rw [hc] at h
    cases h

/-- C6: for every patch wildcard and every registry outcome,
`lookUpLatestPatchVersion` resolves to the highest listed version satisfying
the patch range under semantic-version precedence — excluding versions with an
unrequested pre-release qualifier — and throws the patch-flagged
`LatestVersionUnavailableError` exactly when the request errors, the listing
is absent, or no listed version satisfies the range. -/
theorem lookUpLatestPatchVersion_spec (net : Net) (reg : Option String)
    (packageName version : String) (st st2 : MDState) (ma mi : Nat)
    (hv : parsePatchWildcard version = some (ma, mi)) :
    (registryChainGet net reg packageName st = (Except.error (), st2) →
      lookUpLatestPatchVersion net reg packageName version st
        = (Except.error (FplError.latestVersionUnavailable packageName reg true), st2)) ∧
    (∀ m, registryChainGet net reg packageName st
        = (Except.ok (RespData.registry m), st2) →
      (m.versions = none →
        lookUpLatestPatchVersion net reg packageName version st
          = (Except.error (FplError.latestVersionUnavailable packageName reg true), st2)) ∧
      (∀ vs, m.versions = some vs →
        (∀ v, maxSatisfyingPatch vs ma mi = some v →
          lookUpLatestPatchVersion net reg packageName version st = (Except.ok v, st2) ∧
            v ∈ vs ∧ satisfiesPatch v ma mi = true ∧
            ∀ w ∈ vs, satisfiesPatch w ma mi = true → patchNumOf w ≤ patchNumOf v) ∧
        (maxSatisfyingPatch vs ma mi = none →
          lookUpLatestPatchVersion net reg packageName version st
            = (Except.error (FplError.latestVersionUnavailable packageName reg true), st2) ∧
            ∀ w ∈ vs, satisfiesPatch w ma mi = false))) := by
  refine ⟨?_, ?_⟩
  · intro hchain
    simp only [lookUpLatestPatchVersion, hv, hchain]
  · intro m hchain
    refine ⟨?_, ?_⟩
    · intro hnone
      simp only [lookUpLatestPatchVersion, hv, hchain, hnone]
    · intro vs hvs
      refine ⟨?_, ?_⟩
      · intro v hmax
        have hfacts := maxSatisfyingPatch_some hmax
        exact ⟨by simp only [lookUpLatestPatchVersion, hv, hchain, hvs, hmax],
          hfacts.1, hfacts.2.1, hfacts.2.2⟩
      · intro hmaxnone
        exact ⟨by simp only [lookUpLatestPatchVersion, hv, hchain, hvs, hmaxnone],
          maxSatisfyingPatch_none hmaxnone⟩

/-- Witness for C6 at the repository fixture: wildcard `2.0.x` against
{2.0.0, 2.0.1, 2.0.2-snapshot1} resolves to `2.0.1`, the snapshot being
excluded. -/
theorem lookUpLatestPatchVersion_spec_witness :
    lookUpLatestPatchVersion exPatchNet none "hl7.patches.with.snapshots" "2.0.x"
        exPatchSt = (Except.ok "2.0.1", exPatchSt2) := by
  have h := lookUpLatestPatchVersion_spec exPatchNet none "hl7.patches.with.snapshots"
    "2.0.x" exPatchSt exPatchSt2 2 0 (by decide)
  have h2 := (h.2 exPatchMeta rfl).2 ["2.0.0", "2.0.1", "2.0.2-snapshot1"] rfl
  exact (h2.1 "2.0.1" (by decide)).1

/-- C7: `loadDependencies` never rejects — it is a total function whose
failures surface only as per-request flagged stores and log entries.  Every
per-request failure of the underlying merge yields a store flagged
`unsuccessfulPackageLoad` labeled with the requested `name#version` and
exactly one error log entry whose message carries the proxy/SSL remediation
guidance exactly when the error text mentions a certificate; the batch result
is the per-request results in request order (aggregated by the arity rule), so
sibling requests are unaffected. -/
theorem loadDependencies_catches_failures
    (mergeFn : String → Option String → FHIRDefinitions → Except String FHIRDefinitions)
    (fhirPackages : List String) (p : String) (msg : String)
    (_hp : p ∈ fhirPackages)
    (hfail : mergeFn (requestId p) (requestVersion p) emptyFHIRDefs = Except.error msg) :
    (loadOne mergeFn p).1.unsuccessfulPackageLoad = true ∧
      (loadOne mergeFn p).1.package
        = requestId p ++ "#" ++ versionString (requestVersion p) ∧
      (loadOne mergeFn p).2 =
        [("error",
          "Failed to load " ++ (requestId p ++ "#" ++ versionString (requestVersion p))
            ++ ": " ++ msg ++
            (if hasSubstr msg.data "certificate".data then certGuidance else ""))] ∧
      loadDependencies mergeFn fhirPackages =
        (if (fhirPackages.map (fun q => (loadOne mergeFn q).1)).length > 1
         then some (FHIRDefinitions.mk "" [] []
           (fhirPackages.map (fun q => (loadOne mergeFn q).1)) false)
         else (fhirPackages.map (fun q => (loadOne mergeFn q).1)).head?,
         (fhirPackages.map (fun q => (loadOne mergeFn q).2)).flatten) := by
  refine ⟨?_, ?_, ?_, ?_⟩
  · simp [loadOne, hfail, FHIRDefinitions.unsuccessfulPackageLoad]
  · simp [loadOne, hfail, FHIRDefinitions.package]
  · simp [loadOne, hfail]
  · simp only [loadDependencies, List.map_map]
    rfl

/-- Witness for C7 at the repository test scenario: the self-signed package
request fails with a certificate error, is flagged, keeps its requested label
and does not disturb its sibling. -/
theorem loadDependencies_catches_failures_witness :
    (loadOne exFailMerge "self-signed.package#1.0.0").1.unsuccessfulPackageLoad = true ∧
      (loadOne exFailMerge "self-signed.package#1.0.0").1.package
        = "self-signed.package#1.0.0" := by
  have h := loadDependencies_catches_failures exFailMerge
    ["self-signed.package#1.0.0", "hl7.fhir.r4.core#4.0.1"] "self-signed.package#1.0.0"
    "self signed certificate in certificate chain" (by decide) rfl
  refine ⟨h.1, ?_⟩
  rw [h.2.1]
  decide

/-- Helper: a version string that is neither `latest` nor a wildcard passes
through version resolution unchanged, without touching the state. -/
theorem resolveVersion_plain (net : Net) (reg : Option String)
    (packageName version : String) (st : MDState)
    (hlatest : ¬(version = "latest"))
    (hpatch : parsePatchWildcard version = none)
    (hminor : isMinorWildcard version = false) :
    resolveVersion net reg packageName version st = (Except.ok version, st) := by
  simp [resolveVersion, hlatest, hpatch, hminor]

/-- C1 amended: for every package whose cache directory is already present
under the cache path and every plain version string — one that is not
`latest`, not a patch or minor wildcard, and not of the `current`/
`current$branch` form — `mergeDependency` completes without issuing any
network request (the trace is untouched, the network oracle is irrelevant)
and returns exactly the store obtained by loading that cache path directly
into a fresh store; the only state change is the process-cache
memoization done by that load. -/
theorem mergeDependency_cached_no_network
    (net : Net) (reg : Option String) (packageName version : String)
    (st : MDState) (lp : LoadedPackage)
    (hlatest : ¬(version = "latest"))
    (hpatch : parsePatchWildcard version = none)
    (hminor : isMinorWildcard version = false)
    (hcur : isCurrentVersionString version = false)
    (hcached : (loadFromPath st.fs st.pc (packageName ++ "#" ++ version)).1
        = Except.ok (some lp)) :
    mergeDependency net reg packageName version emptyFHIRDefs st
      = (Except.ok (merge lp emptyFHIRDefs),
         { st with pc := (loadFromPath st.fs st.pc (packageName ++ "#" ++ version)).2 }) := by
  have hvcur : ¬(version = "current") := by
    intro h
    rw [h] at hcur
    simp [isCurrentVersionString] at hcur
  have hplain := resolveVersion_plain net reg packageName version st hlatest hpatch hminor
  simp only [mergeDependency, hplain, hcached]
  have hdev : ¬(version = "dev" ∧ some lp = none) := by
    rintro ⟨-, h⟩
    cases h
  rw [if_neg hdev]
  simp only [mergeDependencyRest]
  have hr5 : ¬(strStartsWith packageName "hl7.fhir.r5." = true ∧ version = "current") := by
    rintro ⟨-, h⟩
    exact hvcur h
  rw [if_neg hr5]
  rw [if_neg (by rw [hcur]; intro h; cases h)]
  rw [if_neg (by intro h; cases h)]

/-- Witness for the amended C1 theorem: loading cached `sushi-test#0.1.0`
touches no network (the oracle rejects everything) and returns the
directly-loaded store. -/
theorem mergeDependency_cached_no_network_witness :
    mergeDependency exDeadNet none "sushi-test" "0.1.0" emptyFHIRDefs exCachedSt
      = (Except.ok (merge exCachedLp emptyFHIRDefs),
         { exCachedSt with
            pc := (loadFromPath exCachedSt.fs exCachedSt.pc "sushi-test#0.1.0").2 }) :=
  mergeDependency_cached_no_network exDeadNet none "sushi-test" "0.1.0" exCachedSt
    exCachedLp (by decide) (by decide) (by decide) (by decide) rfl

/-- C1 (refuting the quantification over `current` versions): for the cached
package `hl7.fhir.r5.core#current` — present under the cache path, as the
first conjunct certifies — `mergeDependency` still issues a network request,
downloading the build-server tarball. -/
theorem mergeDependency_cached_current_hits_network :
    (loadFromPath exR5St.fs exR5St.pc "hl7.fhir.r5.core#current").1
        = Except.ok (some
          { package := "hl7.fhir.r5.core#current", defs := [{ payload := 1 }],
            packageJson := some { payload := 1 } }) ∧
      (mergeDependency exR5Net none "hl7.fhir.r5.core" "current" emptyFHIRDefs
          exR5St).2.trace
        = ["https://build.fhir.org/hl7.fhir.r5.core.tgz"] := by
  exact ⟨rfl, by decide⟩

/-- Witness for C9 at a concrete state: the memoized record for
`sushi-test#current` survives a re-download of completely different bytes. -/
theorem doDownload_returns_memoized_witness :
    (doDownload (fun _ => Except.ok (RespData.tarball (some [("package", Entry.dir [])])))
        "sushi-test#current" "https://build.fhir.org/ig/sushi/package.tgz" none
        { fs := []
          pc := [("sushi-test#current",
            { package := "sushi-test#current", defs := [{ payload := 7 }],
              packageJson := none })]
          lastCurrentUpdate := none, now := 0, trace := [] }).1 =
      Except.ok (some
        { package := "sushi-test#current", defs := [{ payload := 7 }],
          packageJson := none }) :=
  doDownload_returns_memoized _ "sushi-test#current" _ none _ _ _ rfl rfl

end FPL
